import Mathlib

set_option maxHeartbeats 1000000

/-
Verification of the POSIX process-spawning layer (src/posix.rs) of
rust-subprocess.

Embedding conventions: a byte is a Nat, an OsStr or OsString value is a
List Nat of its bytes, a C char pointer is modeled by the contents of the
buffer it points to (none standing for the null pointer).  The exec and
poll syscalls, which interact with the operating system, are abstracted
into explicit oracles passed as arguments; everything else is translated
directly from the Rust source.
-/

namespace Posix

/-- The byte b of a colon, the separator of PATH segments. -/
def colon : Nat := 58

/-- The byte b of a slash, the path separator. -/
def slash : Nat := 47

/-- Rust slicing bytes[a..b] (for a <= b <= bytes.length). -/
def byteSlice (bytes : List Nat) (a b : Nat) : List Nat :=
  (bytes.drop a).take (b - a)

/-- The code run when the for-loop of SplitPath::next exits without
returning: current is set to bytes.len(), and if last is not yet at the
end the final piece bytes[last..] is emitted.  Returns
(emitted piece, new last, new current). -/
def nextEnd (bytes : List Nat) (last : Nat) : Option (List Nat) × Nat × Nat :=
  if last ≠ bytes.length then
    (some (byteSlice bytes last bytes.length), bytes.length, bytes.length)
  else
    (none, last, bytes.length)

/-- The for-loop of SplitPath::next, scanning the index i upward while
i < bytes.length; at a colon the piece bytes[last..i] is emitted when
non-empty, and an empty piece only advances last.  The first argument
counts the remaining iterations and is always invoked with
bytes.length - i, so the scan covers exactly the indices
i, i+1, ..., bytes.length - 1 and the zero case coincides with the loop
running out of indices. -/
def nextScan (bytes : List Nat) : Nat → Nat → Nat → Option (List Nat) × Nat × Nat
  | 0, last, _ => nextEnd bytes last
  | n + 1, last, i =>
    if h : i < bytes.length then
      if bytes[i] = colon then
        if (byteSlice bytes last i).isEmpty then nextScan bytes n (i + 1) (i + 1)
        else (some (byteSlice bytes last i), i + 1, i + 1)
      else nextScan bytes n last (i + 1)
    else nextEnd bytes last

/-- SplitPath::next on the iterator state (last, current): the next piece
of the path, if any, together with the updated state. -/
def SplitPath.next (bytes : List Nat) (last current : Nat) :
    Option (List Nat) × Nat × Nat :=
  nextScan bytes (bytes.length - current) last current

/-- Driving the SplitPath iterator to exhaustion, collecting the pieces.
The fuel bounds the number of next calls; split_path below passes
bytes.length + 1, which is enough (each emitted piece strictly advances
the state, as proved by the equivalence with splitSpec below). -/
def splitPathAux (bytes : List Nat) : Nat → Nat → Nat → List (List Nat)
  | 0, _, _ => []
  | fuel + 1, last, current =>
    match SplitPath.next bytes last current with
    | (none, _, _) => []
    | (some piece, last', current') => piece :: splitPathAux bytes fuel last' current'

/-- split_path: the sequence of pieces produced by the SplitPath iterator
built with last = 0, current = 0. -/
def split_path (bytes : List Nat) : List (List Nat) :=
  splitPathAux bytes (bytes.length + 1) 0 0

/-- Reference definition, written from the words of the specification and
not from the source, for comparison with split_path: scan the bytes
keeping the pending segment acc; a colon ends the pending segment, which
is emitted when non-empty; at the end of input the pending segment is
emitted when non-empty.  The result is the list of non-empty maximal
colon-free sub-slices in left-to-right order, with the empty segments
arising from leading, doubled or trailing colons skipped. -/
def splitSpecAux : List Nat → List Nat → List (List Nat)
  | acc, [] => if acc.isEmpty then [] else [acc]
  | acc, b :: rest =>
    if b = colon then
      if acc.isEmpty then splitSpecAux [] rest else acc :: splitSpecAux [] rest
    else
      splitSpecAux (acc ++ [b]) rest

/-- Reference splitting function (specification side). -/
def splitSpec (bytes : List Nat) : List (List Nat) :=
  splitSpecAux [] bytes

/-- Joining raw pieces with a single colon between consecutive pieces.
A piece list in which some pieces are empty models a colon-decorated
join: an empty piece at the front is a leading colon, an empty piece in
the middle makes a doubled colon, an empty piece at the end makes a
trailing colon. -/
def joinWithColons : List (List Nat) → List Nat
  | [] => []
  | [p] => p
  | p :: q :: ps => p ++ colon :: joinWithColons (q :: ps)

/-- The errno value EINVAL (invalid argument), produced by
Error::from_raw_os_error(libc::EINVAL) in os_to_cstring. -/
def EINVAL : Nat := 22

/-- os_to_cstring: CString::new on the bytes of an OsStr.  CString::new
fails exactly when the input holds an embedded null byte; the source maps
that failure to the EINVAL io::Error.  A CString is modeled by its byte
content without the trailing null. -/
def os_to_cstring (s : List Nat) : Except Nat (List Nat) :=
  if 0 ∈ s then Except.error EINVAL else Except.ok s

/-- CVec: the strings field owns the individual C strings; the ptrs field
is the null-terminated table of pointers into them.  A pointer is modeled
by the byte content (with trailing null) of the buffer it points to,
none standing for the null pointer. -/
structure CVec where
  strings : List (List Nat)
  ptrs : List (Option (List Nat))
deriving DecidableEq

/-- The collect::<Result<Vec<_>>> of the os_to_cstring conversions in
CVec::new: stops at the first failing conversion, otherwise yields all
converted strings in order. -/
def collectResults : List (List Nat) → Except Nat (List (List Nat))
  | [] => Except.ok []
  | s :: rest =>
    match os_to_cstring s with
    | Except.error e => Except.error e
    | Except.ok c =>
      match collectResults rest with
      | Except.error e => Except.error e
      | Except.ok cs => Except.ok (c :: cs)

/-- CVec::new: convert every input to a C string, then build the pointer
table from the as_bytes_with_nul pointers of the strings, chained with
the single null pointer.  The source parameter is called slice. -/
def CVec.new (xs : List (List Nat)) : Except Nat CVec :=
  match collectResults xs with
  | Except.error e => Except.error e
  | Except.ok strings =>
    Except.ok ⟨strings, strings.map (fun s => some (s ++ [0])) ++ [none]⟩

/-- The exe_buf scratch vector: its content and its capacity.  Vec keeps
its capacity on truncate(0); extend_from_slice and push reallocate only
when the new length exceeds the current capacity, so the capacity after
a sequence of writes of total length n is max cap n, and the buffer was
reallocated exactly when n exceeded the prior capacity. -/
structure Buf where
  data : List Nat
  cap : Nat
deriving DecidableEq

/-- FinishExec::set_exe on the exe_buf: truncate(0), extend with each of
the byte_slices in order, push the terminating null byte. -/
def set_exe (buf : Buf) (byte_slices : List (List Nat)) : Buf :=
  ⟨byte_slices.flatten ++ [0], Nat.max buf.cap (byte_slices.flatten ++ [0]).length⟩

/-- The longest PATH component:
split_path(search_path).map(OsStr::len).max().unwrap_or(0) in
FinishExec::new. -/
def maxSegLen (sp : List Nat) : Nat :=
  ((split_path sp).map List.length).foldr Nat.max 0

/-- FinishExec: the staged execution plan.  exe_buf is the scratch buffer
pre-allocated by FinishExec::new (Vec::with_capacity is modeled as
granting exactly the requested capacity). -/
structure FinishExec where
  cmd : List Nat
  argvec : CVec
  envvec : Option CVec
  search_path : Option (List Nat)
  exe_buf : Buf
deriving DecidableEq

/-- FinishExec::new: pre-compute max_exe_len, enough room for
"<pathdir>/<command>\0" with pathdir the longest component of PATH
(command length + 1, plus 1 + longest component when a search path is
present), and pre-allocate the scratch buffer with that capacity. -/
def FinishExec.new (cmd : List Nat) (argvec : CVec) (envvec : Option CVec)
    (search_path : Option (List Nat)) : FinishExec :=
  ⟨cmd, argvec, envvec, search_path,
    ⟨[], cmd.length + 1 +
      (match search_path with
       | some sp => 1 + maxSegLen sp
       | none => 0)⟩⟩

/-- The observable outcome of FinishExec::finish in the child: either the
exec syscall succeeded on some candidate and the process image was
replaced (control never returns), or finish returned Err with the errno
read by Error::last_os_error. -/
inductive FinishResult
  | exec (candidate : List Nat) : FinishResult
  | err (errno : Nat) : FinishResult
deriving DecidableEq

/-- The PATH-search loop of finish(): for each candidate in order,
attempt exec; a successful exec replaces the process image, a failing
exec sets errno (errnoOf candidate) and the loop continues; when the
candidates are exhausted, finish returns Err built from the current
errno.  execOk is the oracle telling whether the exec syscall succeeds
on a candidate executable string. -/
def searchLoop (execOk : List Nat → Bool) (errnoOf : List Nat → Nat) :
    List (List Nat) → Nat → FinishResult
  | [], errno => FinishResult.err errno
  | c :: rest, errno =>
    if execOk c then FinishResult.exec c
    else searchLoop execOk errnoOf rest (errnoOf c)

/-- The candidates on which an exec attempt is actually made, in order:
every candidate up to and including the first successful one. -/
def attemptList (execOk : List Nat → Bool) : List (List Nat) → List (List Nat)
  | [] => []
  | c :: rest => if execOk c then [c] else c :: attemptList execOk rest

/-- The argument lists passed to set_exe over a run of finish(): with a
search path, [dir, "/", cmd] for each piece dir of the path in order;
without one, just [cmd] once. -/
def FinishExec.finishSlices (fe : FinishExec) : List (List (List Nat)) :=
  match fe.search_path with
  | some sp => (split_path sp).map (fun dir => [dir, [slash], fe.cmd])
  | none => [[fe.cmd]]

/-- The candidate executable strings written into the scratch buffer by
set_exe over a run of finish(): each slice list flattened plus the
terminating null byte. -/
def FinishExec.finishCandidates (fe : FinishExec) : List (List Nat) :=
  fe.finishSlices.map (fun sl => sl.flatten ++ [0])

/-- FinishExec::finish.  With a search path: iterate over its pieces,
synthesize "<dir>/<cmd>\0", attempt exec and discard the error (.ok()),
then return Err(Error::last_os_error()) after the loop.  Without one:
synthesize "<cmd>\0", exec once and propagate its error; the line after
the propagation is the unreachable assertion.  errno0 is the value of
the C errno variable on entry. -/
def FinishExec.finish (fe : FinishExec) (execOk : List Nat → Bool)
    (errnoOf : List Nat → Nat) (errno0 : Nat) : FinishResult :=
  match fe.search_path with
  | some sp =>
    searchLoop execOk errnoOf
      ((split_path sp).map (fun dir => dir ++ [slash] ++ fe.cmd ++ [0])) errno0
  | none =>
    if execOk (fe.cmd ++ [0]) then FinishResult.exec (fe.cmd ++ [0])
    else FinishResult.err (errnoOf (fe.cmd ++ [0]))

/-- The exec attempts made over a run of finish(). -/
def FinishExec.finishAttempts (fe : FinishExec) (execOk : List Nat → Bool) :
    List (List Nat) :=
  match fe.search_path with
  | some sp =>
    attemptList execOk ((split_path sp).map (fun dir => dir ++ [slash] ++ fe.cmd ++ [0]))
  | none => [fe.cmd ++ [0]]

/-- FinishExec::exec invokes execve or execv; when the syscall succeeds
the process image is replaced and the call never returns, and whenever
the function body does run to completion it returns
Err(Error::last_os_error()).  This is the Result value the Rust function
returns in the completed case. -/
def FinishExec.execResult (errnoOf : List Nat → Nat) (candidate : List Nat) :
    Except Nat Unit :=
  Except.error (errnoOf candidate)

/-- stage_exec: build the argument CVec (and the environment CVec when an
environment is given), read PATH from the process environment (the
path_var argument; an empty value is treated as non-existent) when the
command holds no slash byte, and stage the FinishExec plan.  The Rust
function returns a closure that calls finish() on the plan; the model
returns the plan itself. -/
def stage_exec (cmd : List Nat) (args : List (List Nat))
    (env : Option (List (List Nat))) (path_var : Option (List Nat)) :
    Except Nat FinishExec :=
  match CVec.new args with
  | Except.error e => Except.error e
  | Except.ok argvec =>
    match (match env with
           | some envlist => (CVec.new envlist).map some
           | none => Except.ok none : Except Nat (Option CVec)) with
    | Except.error e => Except.error e
    | Except.ok envvec =>
      let search_path :=
        if !(cmd.any fun b => b == slash) then
          path_var.bind (fun p => if p.length = 0 then none else some p)
        else none
      Except.ok (FinishExec.new cmd argvec envvec search_path)

/-- Nanoseconds per millisecond: Duration and Instant values are measured
in nanoseconds, and Duration::as_millis truncates. -/
def NANOS_PER_MILLI : Nat := 1000000

/-- i32::max_value(), the largest timeout in milliseconds accepted by the
poll syscall. -/
def POLL_MAX_MS : Nat := 2147483647

/-- The (timeout_ms, overflow) computation at the top of each iteration
of poll(): as_millis of the remaining timeout, truncated to the syscall
maximum with the overflow flag recording whether truncation happened;
an absent timeout becomes the -1 infinite-wait sentinel with no
overflow. -/
def pollTimeoutMs : Option Nat → Int × Bool
  | some t =>
    if t / NANOS_PER_MILLI ≤ POLL_MAX_MS then (Int.ofNat (t / NANOS_PER_MILLI), false)
    else (Int.ofNat POLL_MAX_MS, true)
  | none => (-1, false)

/-- The loop of poll().  sys k tms is the return value of the k-th libc
poll invocation, given timeout tms (a negative return is an error,
cf. check_err, and is propagated); nows k is the k-th Instant::now()
value in nanoseconds, nows 0 being the one used for the deadline.  The
fds array and the revents it reports are abstracted into sys, since the
claims concern the timeout control flow.  The fuel bounds the number of
iterations of the otherwise unbounded Rust loop; none is returned when
it runs out, or on the deadline.unwrap() panic branch (shown unreachable
for poll runs, the deadline being present whenever the overflow flag
was set). -/
def pollLoop (sys : Nat → Int → Int) (nows : Nat → Nat) (deadline : Option Nat) :
    Nat → Nat → Option Nat → Option (Except Unit Nat)
  | 0, _, _ => none
  | fuel + 1, k, timeout =>
    if sys k (pollTimeoutMs timeout).1 < 0 then some (Except.error ())
    else if sys k (pollTimeoutMs timeout).1 ≠ 0 ∨ (pollTimeoutMs timeout).2 = false then
      some (Except.ok (sys k (pollTimeoutMs timeout).1).toNat)
    else
      match deadline with
      | none => none
      | some d =>
        if d ≤ nows (k + 1) then some (Except.ok 0)
        else pollLoop sys nows deadline fuel (k + 1) (some (d - nows (k + 1)))

/-- poll(): compute the deadline from the initial timeout, then run the
loop. -/
def poll (sys : Nat → Int → Int) (nows : Nat → Nat) (timeout : Option Nat)
    (fuel : Nat) : Option (Except Unit Nat) :=
  pollLoop sys nows (timeout.map (fun t => nows 0 + t)) fuel 0 timeout

/-! ### Facts about split_path -/

theorem byteSlice_self (bytes : List Nat) (i : Nat) : byteSlice bytes i i = [] := by
  simp [byteSlice]

theorem length_byteSlice (bytes : List Nat) (a b : Nat) (hb : b ≤ bytes.length) :
    (byteSlice bytes a b).length = b - a := by
  simp only [byteSlice, List.length_take, List.length_drop]
  omega

theorem byteSlice_to_end (bytes : List Nat) (last : Nat) :
    byteSlice bytes last bytes.length = bytes.drop last := by
  have h : bytes.length - last = (bytes.drop last).length := by simp
  rw [byteSlice, h, List.take_length]

theorem byteSlice_isEmpty (bytes : List Nat) (a b : Nat) (hb : b ≤ bytes.length) :
    ((byteSlice bytes a b).isEmpty = true) ↔ b ≤ a := by
  rw [List.isEmpty_iff, ← List.length_eq_zero, length_byteSlice bytes a b hb]
  omega

theorem byteSlice_snoc (bytes : List Nat) (a i : Nat) (hai : a ≤ i)
    (h : i < bytes.length) :
    byteSlice bytes a (i + 1) = byteSlice bytes a i ++ [bytes[i]] := by
  unfold byteSlice
  have h1 : i + 1 - a = (i - a) + 1 := by omega
  rw [h1, List.take_succ]
  congr 1
  rw [List.getElem?_drop]
  have h2 : a + (i - a) = i := by omega
  rw [h2, List.getElem?_eq_getElem h]
  rfl

theorem splitPathAux_terminal (bytes : List Nat) (fuel : Nat) :
    splitPathAux bytes fuel bytes.length bytes.length = [] := by
  cases fuel with
  | zero => rfl
  | succ f =>
    simp [splitPathAux, SplitPath.next, Nat.sub_self, nextScan, nextEnd]

theorem splitPathAux_end (bytes : List Nat) (last fuel : Nat) (hl : last ≤ bytes.length) :
    splitPathAux bytes (fuel + 1) last bytes.length
      = splitSpecAux (byteSlice bytes last bytes.length) [] := by
  by_cases heq : last = bytes.length
  · subst heq
    rw [splitPathAux_terminal, byteSlice_self]
    rfl
  · have hnext : SplitPath.next bytes last bytes.length
        = (some (byteSlice bytes last bytes.length), bytes.length, bytes.length) := by
      simp only [SplitPath.next, Nat.sub_self, nextScan, nextEnd, if_pos heq]
    simp only [splitPathAux, hnext, splitPathAux_terminal]
    have hne : ¬ (byteSlice bytes last bytes.length).isEmpty = true := by
      rw [byteSlice_isEmpty bytes last bytes.length (le_refl _)]
      omega
    simp only [splitSpecAux]
    rw [if_neg hne]

theorem splitPathAux_spec (bytes : List Nat) :
    ∀ (n i last fuel : Nat), bytes.length - i ≤ n → last ≤ i → i ≤ bytes.length →
      bytes.length - i < fuel →
      splitPathAux bytes fuel last i = splitSpecAux (byteSlice bytes last i) (bytes.drop i) := by
  intro n
  induction n with
  | zero =>
    intro i last fuel h0 hli hi hf
    have hi2 : i = bytes.length := by omega
    subst hi2
    obtain ⟨f, rfl⟩ : ∃ f, fuel = f + 1 := ⟨fuel - 1, by omega⟩
    rw [List.drop_length]
    exact splitPathAux_end bytes last f hli
  | succ m ih =>
    intro i last fuel h0 hli hi hf
    by_cases hlt : i < bytes.length
    · have hk : bytes.length - i = (bytes.length - (i + 1)) + 1 := by omega
      have hdrop : bytes.drop i = bytes[i] :: bytes.drop (i + 1) :=
        List.drop_eq_getElem_cons hlt
      obtain ⟨f, rfl⟩ : ∃ f, fuel = f + 1 := ⟨fuel - 1, by omega⟩
      by_cases hcol : bytes[i] = colon
      · by_cases hemp : (byteSlice bytes last i).isEmpty = true
        · have hnext : SplitPath.next bytes last i = SplitPath.next bytes (i + 1) (i + 1) := by
            simp only [SplitPath.next, hk, nextScan, dif_pos hlt, if_pos hcol, if_pos hemp]
          have hstep : splitPathAux bytes (f + 1) last i
              = splitPathAux bytes (f + 1) (i + 1) (i + 1) := by
            simp only [splitPathAux, hnext]
          rw [hstep, ih (i + 1) (i + 1) (f + 1) (by omega) (le_refl _) hlt (by omega)]
          rw [byteSlice_self, hdrop]
          have hemp2 : byteSlice bytes last i = [] := List.isEmpty_iff.mp hemp
          simp only [splitSpecAux, hemp2, if_pos hcol]
          rfl
        · have hnext : SplitPath.next bytes last i
              = (some (byteSlice bytes last i), i + 1, i + 1) := by
            simp only [SplitPath.next, hk, nextScan, dif_pos hlt, if_pos hcol, if_neg hemp]
          have hstep : splitPathAux bytes (f + 1) last i
              = byteSlice bytes last i :: splitPathAux bytes f (i + 1) (i + 1) := by
            simp only [splitPathAux, hnext]
          rw [hstep, ih (i + 1) (i + 1) f (by omega) (le_refl _) hlt (by omega)]
          rw [byteSlice_self, hdrop]
          simp only [splitSpecAux, if_pos hcol, if_neg hemp]
      · have hnext : SplitPath.next bytes last i = SplitPath.next bytes last (i + 1) := by
          simp only [SplitPath.next, hk, nextScan, dif_pos hlt, if_neg hcol]
        have hstep : splitPathAux bytes (f + 1) last i
            = splitPathAux bytes (f + 1) last (i + 1) := by
          simp only [splitPathAux, hnext]
        rw [hstep, ih (i + 1) last (f + 1) (by omega) (by omega) hlt (by omega)]
        rw [byteSlice_snoc bytes last i hli hlt, hdrop]
        simp only [splitSpecAux, if_neg hcol]
    · have hi2 : i = bytes.length := by omega
      subst hi2
      obtain ⟨f, rfl⟩ : ∃ f, fuel = f + 1 := ⟨fuel - 1, by omega⟩
      rw [List.drop_length]
      exact splitPathAux_end bytes last f hli

/-- The SplitPath iterator agrees with the specification-side splitter. -/
theorem split_path_eq_splitSpec (bytes : List Nat) : split_path bytes = splitSpec bytes := by
  have h := splitPathAux_spec bytes bytes.length 0 0 (bytes.length + 1)
    (by omega) (by omega) (by omega) (by omega)
  rw [split_path, h, byteSlice_self, List.drop_zero, splitSpec]

theorem splitSpecAux_no_colon (p : List Nat) :
    ∀ acc, colon ∉ p →
      splitSpecAux acc p = if (acc ++ p).isEmpty then [] else [acc ++ p] := by
  induction p with
  | nil => intro acc _; simp [splitSpecAux]
  | cons b p2 ih =>
    intro acc hnc
    have hb : b ≠ colon := by
      intro h; exact hnc (by rw [h]; exact List.mem_cons_self _ _)
    have hp2 : colon ∉ p2 := fun h => hnc (List.mem_cons_of_mem b h)
    rw [splitSpecAux, if_neg hb, ih (acc ++ [b]) hp2]
    have h1 : acc ++ [b] ++ p2 = acc ++ b :: p2 := by simp
    rw [h1]

theorem splitSpecAux_seg_colon (p : List Nat) :
    ∀ acc rest, colon ∉ p →
      splitSpecAux acc (p ++ colon :: rest)
        = if (acc ++ p).isEmpty then splitSpecAux [] rest
          else (acc ++ p) :: splitSpecAux [] rest := by
  induction p with
  | nil =>
    intro acc rest _
    rw [List.nil_append, splitSpecAux, if_pos rfl, List.append_nil]
  | cons b p2 ih =>
    intro acc rest hnc
    have hb : b ≠ colon := by
      intro h; exact hnc (by rw [h]; exact List.mem_cons_self _ _)
    have hp2 : colon ∉ p2 := fun h => hnc (List.mem_cons_of_mem b h)
    rw [List.cons_append, splitSpecAux, if_neg hb, ih (acc ++ [b]) rest hp2]
    have h1 : acc ++ [b] ++ p2 = acc ++ b :: p2 := by simp
    rw [h1]

theorem splitSpec_join (parts : List (List Nat)) (h : ∀ p ∈ parts, colon ∉ p) :
    splitSpec (joinWithColons parts) = parts.filter (fun p => !p.isEmpty) := by
  induction parts with
  | nil => rfl
  | cons p ps ih =>
    cases ps with
    | nil =>
      have hp : colon ∉ p := h p (List.mem_cons_self p [])
      show splitSpecAux [] (joinWithColons [p]) = _
      rw [show joinWithColons [p] = p from rfl, splitSpecAux_no_colon p [] hp]
      simp only [List.nil_append, List.filter]
      cases hemp : p.isEmpty <;> simp [hemp]
    | cons q ps2 =>
      have hp : colon ∉ p := h p (List.mem_cons_self p (q :: ps2))
      have hrest : ∀ r ∈ q :: ps2, colon ∉ r := fun r hr => h r (List.mem_cons_of_mem p hr)
      have ihq := ih hrest
      simp only [splitSpec] at ihq
      show splitSpecAux [] (joinWithColons (p :: q :: ps2)) = _
      rw [show joinWithColons (p :: q :: ps2) = p ++ colon :: joinWithColons (q :: ps2) from rfl]
      rw [splitSpecAux_seg_colon p [] (joinWithColons (q :: ps2)) hp]
      simp only [List.nil_append]
      rw [ihq]
      cases hemp : p.isEmpty <;> simp [List.filter_cons, hemp]

theorem splitSpecAux_pieces (rest : List Nat) :
    ∀ acc piece, colon ∉ acc → piece ∈ splitSpecAux acc rest →
      piece ≠ [] ∧ colon ∉ piece := by
  induction rest with
  | nil =>
    intro acc piece hacc hmem
    by_cases hemp : acc.isEmpty = true
    · rw [splitSpecAux, if_pos hemp] at hmem
      exact absurd hmem (List.not_mem_nil piece)
    · rw [splitSpecAux, if_neg hemp] at hmem
      rw [List.mem_singleton] at hmem
      subst hmem
      exact ⟨fun h => hemp (by rw [h]; rfl), hacc⟩
  | cons b rest2 ih =>
    intro acc piece hacc hmem
    by_cases hcol : b = colon
    · rw [splitSpecAux, if_pos hcol] at hmem
      by_cases hemp : acc.isEmpty = true
      · rw [if_pos hemp] at hmem
        exact ih [] piece (List.not_mem_nil colon) hmem
      · rw [if_neg hemp] at hmem
        rcases List.mem_cons.mp hmem with hmem | hmem
        · subst hmem
          exact ⟨fun h => hemp (by rw [h]; rfl), hacc⟩
        · exact ih [] piece (List.not_mem_nil colon) hmem
    · rw [splitSpecAux, if_neg hcol] at hmem
      refine ih (acc ++ [b]) piece ?_ hmem
      intro hc
      rcases List.mem_append.mp hc with hc | hc
      · exact hacc hc
      · rw [List.mem_singleton] at hc
        exact hcol hc.symm

/-- Claim C4: split_path yields exactly the non-empty maximal colon-free
sub-slices in left-to-right order (it agrees with the reference splitter
splitSpec, and every piece it yields is non-empty and colon-free), with
the eight enumerated examples. -/
theorem claim_C4 :
    (∀ bytes : List Nat, split_path bytes = splitSpec bytes)
    ∧ (∀ bytes piece : List Nat, piece ∈ split_path bytes → piece ≠ [] ∧ colon ∉ piece)
    ∧ split_path [97, 58, 98] = [[97], [98]]
    ∧ split_path [97, 58] = [[97]]
    ∧ split_path [] = []
    ∧ split_path [58] = []
    ∧ split_path [58, 58] = []
    ∧ split_path [58, 58, 58] = []
    ∧ split_path [97, 58, 58, 98] = [[97], [98]]
    ∧ split_path [58, 97, 58, 58, 58, 58, 98, 58] = [[97], [98]] := by
  refine ⟨split_path_eq_splitSpec, ?_, by decide, by decide, by decide, by decide,
    by decide, by decide, by decide, by decide⟩
  intro bytes piece hmem
  rw [split_path_eq_splitSpec] at hmem
  exact splitSpecAux_pieces bytes [] piece (List.not_mem_nil colon) hmem

/-- Witness for claim C4 at a concrete membership. -/
theorem claim_C4_witness : ([97] : List Nat) ≠ [] ∧ colon ∉ ([97] : List Nat) :=
  claim_C4.2.1 [97, 58, 98] [97] (by decide)

/-- Claim C9: split_path is invariant under colon decoration: joining
non-empty colon-free segments with single colons and inserting any number
of extra leading, trailing or doubled colons (modeled by a piece list
whose non-empty pieces are exactly the segments) always splits back to
the segments. -/
theorem claim_C9 (segs parts : List (List Nat)) (hfree : ∀ p ∈ parts, colon ∉ p)
    (hsegs : parts.filter (fun p => !p.isEmpty) = segs) :
    split_path (joinWithColons parts) = segs := by
  rw [split_path_eq_splitSpec, splitSpec_join parts hfree, hsegs]

/-- Witness for claim C9: the decoration ":a::::b:" of the segments a, b. -/
theorem claim_C9_witness :
    split_path (joinWithColons [[], [97], [], [], [], [98], []]) = [[97], [98]] :=
  claim_C9 [[97], [98]] [[], [97], [], [], [], [98], []] (by decide) (by decide)

/-! ### Facts about FinishExec -/

theorem le_foldr_max (l : List Nat) (x : Nat) (hx : x ∈ l) : x ≤ l.foldr Nat.max 0 := by
  induction l with
  | nil => exact absurd hx (List.not_mem_nil x)
  | cons a l ih =>
    rcases List.mem_cons.mp hx with h | h
    · subst h; exact Nat.le_max_left _ _
    · exact le_trans (ih h) (Nat.le_max_right _ _)

/-- The candidate strings written by finish(), computed from the staged
fields. -/
theorem finishCandidates_eq (fe : FinishExec) :
    fe.finishCandidates
      = match fe.search_path with
        | some sp => (split_path sp).map (fun dir => dir ++ [slash] ++ fe.cmd ++ [0])
        | none => [fe.cmd ++ [0]] := by
  rcases fe with ⟨cmd, argvec, envvec, sp, buf⟩
  cases sp with
  | none => simp [FinishExec.finishCandidates, FinishExec.finishSlices]
  | some sp =>
    simp only [FinishExec.finishCandidates, FinishExec.finishSlices, List.map_map]
    congr 1
    funext dir
    simp [Function.comp, List.append_assoc]

/-- finish() is the search loop run on the candidate strings (the direct,
no-search branch coincides with the loop on the single candidate). -/
theorem finish_eq_searchLoop (fe : FinishExec) (execOk : List Nat → Bool)
    (errnoOf : List Nat → Nat) (errno0 : Nat) :
    fe.finish execOk errnoOf errno0 = searchLoop execOk errnoOf fe.finishCandidates errno0 := by
  rw [finishCandidates_eq]
  rcases fe with ⟨cmd, argvec, envvec, sp, buf⟩
  cases sp with
  | some sp => rfl
  | none =>
    simp only [FinishExec.finish, searchLoop]

theorem finishAttempts_eq (fe : FinishExec) (execOk : List Nat → Bool) :
    fe.finishAttempts execOk = attemptList execOk fe.finishCandidates := by
  rcases fe with ⟨cmd, argvec, envvec, sp, buf⟩
  cases sp with
  | none =>
    simp only [FinishExec.finishAttempts, finishCandidates_eq, attemptList]
    cases hok : execOk (cmd ++ [0]) <;> simp [attemptList, hok]
  | some sp =>
    rw [finishCandidates_eq]
    rfl

theorem searchLoop_all_fail (execOk : List Nat → Bool) (errnoOf : List Nat → Nat) :
    ∀ (cands : List (List Nat)) (errno0 : Nat), (∀ c ∈ cands, execOk c = false) →
      searchLoop execOk errnoOf cands errno0
        = FinishResult.err ((cands.map errnoOf).getLastD errno0) := by
  intro cands
  induction cands with
  | nil => intro errno0 _; rfl
  | cons c rest ih =>
    intro errno0 hall
    have hc : execOk c = false := hall c (List.mem_cons_self c rest)
    rw [searchLoop, if_neg (by simp [hc]),
      ih (errnoOf c) (fun d hd => hall d (List.mem_cons_of_mem c hd))]
    rw [List.map_cons, List.getLastD_cons]

theorem attemptList_all_fail (execOk : List Nat → Bool) :
    ∀ cands : List (List Nat), (∀ c ∈ cands, execOk c = false) →
      attemptList execOk cands = cands := by
  intro cands
  induction cands with
  | nil => intro _; rfl
  | cons c rest ih =>
    intro hall
    have hc : execOk c = false := hall c (List.mem_cons_self c rest)
    rw [attemptList, if_neg (by simp [hc]),
      ih (fun d hd => hall d (List.mem_cons_of_mem c hd))]

/-- Every candidate string of a staged plan fits in the capacity computed
by FinishExec::new. -/
theorem candidate_fits (cmd : List Nat) (argvec : CVec) (envvec : Option CVec)
    (sp : Option (List Nat)) (c : List Nat)
    (hc : c ∈ (FinishExec.new cmd argvec envvec sp).finishCandidates) :
    c.length ≤ (FinishExec.new cmd argvec envvec sp).exe_buf.cap := by
  rw [finishCandidates_eq] at hc
  cases sp with
  | none =>
    simp only [FinishExec.new, List.mem_singleton] at hc ⊢
    subst hc
    simp
  | some p =>
    simp only [FinishExec.new, List.mem_map] at hc ⊢
    obtain ⟨dir, hdir, rfl⟩ := hc
    have hlen : dir.length ≤ maxSegLen p :=
      le_foldr_max _ _ (List.mem_map_of_mem List.length hdir)
    simp only [List.length_append, List.length_cons, List.length_nil]
    omega

/-- Claim C1: with no search path the staged scratch capacity is exactly
the command length C plus 1; with a search path whose longest non-empty
piece has length L it is exactly L + 1 + C + 1; every candidate string
finish() writes has length at most that capacity, so no set_exe call over
a run of finish() grows the buffer. -/
theorem claim_C1 (cmd : List Nat) (argvec : CVec) (envvec : Option CVec)
    (sp : Option (List Nat)) :
    ((FinishExec.new cmd argvec envvec none).exe_buf.cap = cmd.length + 1)
    ∧ (∀ p : List Nat,
        (FinishExec.new cmd argvec envvec (some p)).exe_buf.cap
          = maxSegLen p + 1 + (cmd.length + 1))
    ∧ (∀ c ∈ (FinishExec.new cmd argvec envvec sp).finishCandidates,
        c.length ≤ (FinishExec.new cmd argvec envvec sp).exe_buf.cap)
    ∧ (∀ sl ∈ (FinishExec.new cmd argvec envvec sp).finishSlices, ∀ buf : Buf,
        (FinishExec.new cmd argvec envvec sp).exe_buf.cap ≤ buf.cap →
        (set_exe buf sl).cap = buf.cap) := by
  refine ⟨by simp [FinishExec.new], ?_, candidate_fits cmd argvec envvec sp, ?_⟩
  · intro p
    simp only [FinishExec.new]
    omega
  · intro sl hsl buf hcap
    have hmem : sl.flatten ++ [0] ∈ (FinishExec.new cmd argvec envvec sp).finishCandidates :=
      List.mem_map_of_mem _ hsl
    have hfit := le_trans (candidate_fits cmd argvec envvec sp _ hmem) hcap
    simp only [set_exe]
    exact Nat.max_eq_left hfit

/-- Witness for claim C1: the single candidate of the plan for the
command "x" with search path "a" fits in the reserved capacity. -/
theorem claim_C1_witness :
    ([97, 47, 120, 0] : List Nat).length
      ≤ (FinishExec.new [120] ⟨[], [none]⟩ none (some [97])).exe_buf.cap :=
  (claim_C1 [120] ⟨[], [none]⟩ none (some [97])).2.2.1 [97, 47, 120, 0] (by decide)

/-- Claim C2: with a search path, finish() runs the search loop over
exactly the candidates built as piece, slash, command, null from the
non-empty colon-delimited pieces of the path in order; when every exec
attempt fails, every candidate is attempted and an Err carrying the last
observed OS error (the errno of the last attempt, or the entry errno
when there was none) is returned. -/
theorem claim_C2 (cmd sp : List Nat) (argvec : CVec) (envvec : Option CVec)
    (execOk : List Nat → Bool) (errnoOf : List Nat → Nat) (errno0 : Nat) :
    (FinishExec.new cmd argvec envvec (some sp)).finishCandidates
        = (split_path sp).map (fun dir => dir ++ [slash] ++ cmd ++ [0])
    ∧ (FinishExec.new cmd argvec envvec (some sp)).finish execOk errnoOf errno0
        = searchLoop execOk errnoOf
            ((FinishExec.new cmd argvec envvec (some sp)).finishCandidates) errno0
    ∧ ((∀ c ∈ (FinishExec.new cmd argvec envvec (some sp)).finishCandidates,
          execOk c = false) →
        (FinishExec.new cmd argvec envvec (some sp)).finishAttempts execOk
            = (FinishExec.new cmd argvec envvec (some sp)).finishCandidates
          ∧ (FinishExec.new cmd argvec envvec (some sp)).finish execOk errnoOf errno0
            = FinishResult.err
                ((((FinishExec.new cmd argvec envvec (some sp)).finishCandidates).map
                    errnoOf).getLastD errno0)) := by
  refine ⟨finishCandidates_eq _, finish_eq_searchLoop _ _ _ _, ?_⟩
  intro hall
  refine ⟨?_, ?_⟩
  · rw [finishAttempts_eq]
    exact attemptList_all_fail execOk _ hall
  · rw [finish_eq_searchLoop]
    exact searchLoop_all_fail execOk errnoOf _ errno0 hall

/-- Witness for claim C2: with search path "a:b", command "x", and an
exec stub that always fails setting errno 2, finish returns Err(2), the
errno of the last attempt. -/
theorem claim_C2_witness :
    (FinishExec.new [120] ⟨[], [none]⟩ none (some [97, 58, 98])).finish
        (fun _ => false) (fun _ => 2) 5 = FinishResult.err 2 := by
  have h := (claim_C2 [120] [97, 58, 98] ⟨[], [none]⟩ none
    (fun _ => false) (fun _ => 2) 5).2.2 (by decide)
  rw [h.2]
  decide

/-- Claim C8: with no search path, finish() attempts exec exactly once on
the command with a terminating null and propagates its error; the Rust
exec function returns Err whenever it returns at all, so the unreachable
assertion after the direct exec attempt can never be reached. -/
theorem claim_C8 (cmd : List Nat) (argvec : CVec) (envvec : Option CVec)
    (execOk : List Nat → Bool) (errnoOf : List Nat → Nat) (errno0 : Nat) :
    (FinishExec.new cmd argvec envvec none).finishAttempts execOk = [cmd ++ [0]]
    ∧ (execOk (cmd ++ [0]) = false →
        (FinishExec.new cmd argvec envvec none).finish execOk errnoOf errno0
          = FinishResult.err (errnoOf (cmd ++ [0])))
    ∧ (execOk (cmd ++ [0]) = true →
        (FinishExec.new cmd argvec envvec none).finish execOk errnoOf errno0
          = FinishResult.exec (cmd ++ [0]))
    ∧ (∀ c : List Nat, FinishExec.execResult errnoOf c ≠ Except.ok ()) := by
  refine ⟨rfl, ?_, ?_, ?_⟩
  · intro h
    simp [FinishExec.finish, FinishExec.new, h]
  · intro h
    simp [FinishExec.finish, FinishExec.new, h]
  · intro c h
    exact Except.noConfusion h

/-- Witness for claim C8: a failing direct exec surfaces its errno. -/
theorem claim_C8_witness :
    (FinishExec.new [120] ⟨[], [none]⟩ none none).finish
        (fun _ => false) (fun _ => 13) 5 = FinishResult.err 13 :=
  (claim_C8 [120] ⟨[], [none]⟩ none (fun _ => false) (fun _ => 13) 5).2.1 rfl

/-- Claim C10: a search path made only of colons, such as ":::", is not
filtered out by stage_exec (only the empty string is treated as absent),
has no non-empty piece, and makes finish() attempt zero execs and return
an Err built from whatever errno value was already set. -/
theorem claim_C10 :
    split_path [58, 58, 58] = []
    ∧ (∀ (cmd : List Nat) (args : List (List Nat)) (env : Option (List (List Nat)))
        (fe : FinishExec), (cmd.any fun b => b == slash) = false →
        stage_exec cmd args env (some [58, 58, 58]) = Except.ok fe →
        fe.search_path = some [58, 58, 58])
    ∧ (∀ (sp cmd : List Nat) (argvec : CVec) (envvec : Option CVec)
        (execOk : List Nat → Bool) (errnoOf : List Nat → Nat) (errno0 : Nat),
        split_path sp = [] →
        (FinishExec.new cmd argvec envvec (some sp)).finishAttempts execOk = []
        ∧ (FinishExec.new cmd argvec envvec (some sp)).finish execOk errnoOf errno0
            = FinishResult.err errno0) := by
  refine ⟨by decide, ?_, ?_⟩
  · intro cmd args env fe hns hok
    cases h1 : CVec.new args with
    | error e => simp [stage_exec, h1] at hok
    | ok argvec =>
      cases env with
      | none =>
        simp only [stage_exec, h1, hns, Bool.not_false, if_true] at hok
        rw [Except.ok.injEq] at hok
        subst hok
        rfl
      | some envlist =>
        cases h2 : CVec.new envlist with
        | error e => simp [stage_exec, h1, h2, Except.map] at hok
        | ok envvec =>
          simp only [stage_exec, h1, h2, hns, Bool.not_false, if_true, Except.map] at hok
          rw [Except.ok.injEq] at hok
          subst hok
          rfl
  · intro sp cmd argvec envvec execOk errnoOf errno0 hsp
    constructor
    · simp [FinishExec.finishAttempts, FinishExec.new, hsp, attemptList]
    · simp [FinishExec.finish, FinishExec.new, hsp, searchLoop]

/-- Witness for claim C10: with search path ":::" and a failing exec
stub, finish returns Err with the entry errno 5 after zero attempts. -/
theorem claim_C10_witness :
    (FinishExec.new [120] ⟨[], [none]⟩ none (some [58, 58, 58])).finish
        (fun _ => false) (fun _ => 13) 5 = FinishResult.err 5 :=
  (claim_C10.2.2 [58, 58, 58] [120] ⟨[], [none]⟩ none
    (fun _ => false) (fun _ => 13) 5 (by decide)).2

/-! ### Facts about CVec and stage_exec -/

theorem collectResults_ok (xs : List (List Nat)) (h : ∀ s ∈ xs, (0 : Nat) ∉ s) :
    collectResults xs = Except.ok xs := by
  induction xs with
  | nil => rfl
  | cons s rest ih =>
    have hs : (0 : Nat) ∉ s := h s (List.mem_cons_self s rest)
    simp only [collectResults, os_to_cstring, if_neg hs,
      ih (fun t ht => h t (List.mem_cons_of_mem s ht))]

theorem collectResults_err (xs : List (List Nat)) (h : ∃ s ∈ xs, (0 : Nat) ∈ s) :
    collectResults xs = Except.error EINVAL := by
  induction xs with
  | nil =>
    obtain ⟨s, hs, _⟩ := h
    exact absurd hs (List.not_mem_nil s)
  | cons s rest ih =>
    by_cases hs : (0 : Nat) ∈ s
    · simp only [collectResults, os_to_cstring, if_pos hs]
    · obtain ⟨t, ht, h0⟩ := h
      rcases List.mem_cons.mp ht with rfl | ht2
      · exact absurd h0 hs
      · simp only [collectResults, os_to_cstring, if_neg hs, ih ⟨t, ht2, h0⟩]

/-- The search path computed at staging time: present exactly when the
command has no slash byte and PATH is set non-empty, and in that case it
carries the PATH value itself. -/
theorem searchPathSpec (cmd : List Nat) (path_var : Option (List Nat)) :
    ((if !(cmd.any fun b => b == slash) then
        path_var.bind (fun p => if p.length = 0 then none else some p)
      else none).isSome = true
      ↔ ((cmd.any fun b => b == slash) = false
          ∧ ∃ p : List Nat, path_var = some p ∧ p ≠ []))
    ∧ ∀ p : List Nat,
        (if !(cmd.any fun b => b == slash) then
          path_var.bind (fun p => if p.length = 0 then none else some p)
        else none) = some p → path_var = some p := by
  cases hany : (cmd.any fun b => b == slash) with
  | true => simp [hany]
  | false =>
    cases path_var with
    | none => simp [hany]
    | some q =>
      by_cases hq : q.length = 0
      · have hqnil : q = [] := List.length_eq_zero.mp hq
        subst hqnil
        simp [hany]
      · have hqne : q ≠ [] := fun hnil => hq (by rw [hnil]; rfl)
        constructor
        · simp [hany, hq, hqne]
        · intro p hp
          simp [hany, hq] at hp
          rw [hp.2]

/-- Claim C5: any embedded null byte among the argument strings, or (with
null-free arguments) among the environment strings, makes stage_exec fail
with the EINVAL invalid-argument error during staging; no plan is ever
produced in that case. -/
theorem claim_C5 (cmd : List Nat) (args : List (List Nat))
    (env : Option (List (List Nat))) (path_var : Option (List Nat)) :
    ((∃ a ∈ args, (0 : Nat) ∈ a) →
      stage_exec cmd args env path_var = Except.error EINVAL)
    ∧ (∀ envlist : List (List Nat), env = some envlist →
        (∀ a ∈ args, (0 : Nat) ∉ a) → (∃ s ∈ envlist, (0 : Nat) ∈ s) →
        stage_exec cmd args env path_var = Except.error EINVAL) := by
  constructor
  · intro hex
    have h1 : CVec.new args = Except.error EINVAL := by
      simp [CVec.new, collectResults_err args hex]
    simp [stage_exec, h1]
  · intro envlist henv hargs hex
    subst henv
    have h1 : CVec.new args
        = Except.ok ⟨args, args.map (fun s => some (s ++ [0])) ++ [none]⟩ := by
      simp [CVec.new, collectResults_ok args hargs]
    have h2 : CVec.new envlist = Except.error EINVAL := by
      simp [CVec.new, collectResults_err envlist hex]
    simp [stage_exec, h1, h2, Except.map]

/-- Witness for claim C5: an argument list holding a lone null byte. -/
theorem claim_C5_witness :
    stage_exec [120] [[0]] none none = Except.error EINVAL :=
  (claim_C5 [120] [[0]] none none).1 (by decide)

/-- Claim C6: on null-free input the constructed pointer table has one
entry more than the input, ends in the null pointer, and each other entry
points to the corresponding input followed by a terminating null byte. -/
theorem claim_C6 (xs : List (List Nat)) (h : ∀ s ∈ xs, (0 : Nat) ∉ s) :
    ∃ cv : CVec, CVec.new xs = Except.ok cv
      ∧ cv.ptrs.length = xs.length + 1
      ∧ cv.ptrs.getLast? = some none
      ∧ ∀ (i : Nat) (s : List Nat), xs[i]? = some s →
          cv.ptrs[i]? = some (some (s ++ [0])) := by
  refine ⟨⟨xs, xs.map (fun s => some (s ++ [0])) ++ [none]⟩, ?_, ?_, ?_, ?_⟩
  · simp [CVec.new, collectResults_ok xs h]
  · simp
  · exact List.getLast?_concat _
  · intro i s hi
    have hilen : i < xs.length := by
      by_contra hge
      rw [List.getElem?_eq_none (by omega)] at hi
      exact Option.noConfusion hi
    rw [List.getElem?_append]
    rw [if_pos (by simpa using hilen)]
    rw [List.getElem?_map, hi]
    rfl

/-- Witness for claim C6 on the single string "hi". -/
theorem claim_C6_witness :
    ∃ cv : CVec, CVec.new [[104, 105]] = Except.ok cv
      ∧ cv.ptrs.length = [[104, 105]].length + 1
      ∧ cv.ptrs.getLast? = some none
      ∧ ∀ (i : Nat) (s : List Nat), [[104, 105]][i]? = some s →
          cv.ptrs[i]? = some (some (s ++ [0])) :=
  claim_C6 [[104, 105]] (by decide)

/-- Claim C7: a staged plan carries a search path exactly when the
command has no slash byte and PATH is set to a non-empty value, the
carried path is the PATH value itself, and an empty PATH behaves exactly
like an absent one.  PATH enters only through stage_exec; finish takes no
environment at all. -/
theorem claim_C7 (cmd : List Nat) (args : List (List Nat))
    (env : Option (List (List Nat))) (path_var : Option (List Nat)) :
    (∀ fe : FinishExec, stage_exec cmd args env path_var = Except.ok fe →
      ((fe.search_path).isSome = true
        ↔ ((cmd.any fun b => b == slash) = false
            ∧ ∃ p : List Nat, path_var = some p ∧ p ≠ []))
      ∧ (∀ p : List Nat, fe.search_path = some p → path_var = some p))
    ∧ stage_exec cmd args env (some []) = stage_exec cmd args env none := by
  constructor
  · intro fe hok
    cases h1 : CVec.new args with
    | error e => simp [stage_exec, h1] at hok
    | ok argvec =>
      cases env with
      | none =>
        simp only [stage_exec, h1] at hok
        rw [Except.ok.injEq] at hok
        subst hok
        exact searchPathSpec cmd path_var
      | some envlist =>
        cases h2 : CVec.new envlist with
        | error e => simp [stage_exec, h1, h2, Except.map] at hok
        | ok envvec =>
          simp only [stage_exec, h1, h2, Except.map] at hok
          rw [Except.ok.injEq] at hok
          subst hok
          exact searchPathSpec cmd path_var
  · cases h1 : CVec.new args with
    | error e => simp [stage_exec, h1]
    | ok argvec =>
      cases env with
      | none => simp [stage_exec, h1]
      | some envlist =>
        cases h2 : CVec.new envlist with
        | error e => simp [stage_exec, h1, h2, Except.map]
        | ok envvec => simp [stage_exec, h1, h2, Except.map]

/-- Witness for claim C7: command "x", PATH "a": the staged plan carries
a search path. -/
theorem claim_C7_witness :
    ((FinishExec.new [120] ⟨[], [none]⟩ none (some [97])).search_path).isSome = true := by
  have h := (claim_C7 [120] [] none (some [97])).1
    (FinishExec.new [120] ⟨[], [none]⟩ none (some [97])) rfl
  exact h.1.mpr ⟨by decide, [97], rfl, by decide⟩

/-! ### Facts about poll -/

/-- Claim C3: poll clamps each remaining timeout to the syscall maximum
of 2^31 - 1 milliseconds while recording the overflow flag; the syscall
result is returned at once on a nonzero ready-count or when no clamping
occurred; on a clamped zero-ready return the remaining time is recomputed
against the original deadline, zero-ready is returned when the deadline
has passed, and otherwise the loop continues with the reduced timeout; an
absent timeout becomes the -1 sentinel and returns after the very first
syscall, for any fuel. -/
theorem claim_C3 :
    POLL_MAX_MS = 2 ^ 31 - 1
    ∧ pollTimeoutMs none = (-1, false)
    ∧ (∀ (sys : Nat → Int → Int) (nows : Nat → Nat) (fuel : Nat),
        poll sys nows none (fuel + 1)
          = some (if sys 0 (-1) < 0 then Except.error ()
                  else Except.ok (sys 0 (-1)).toNat))
    ∧ (∀ t : Nat,
        (pollTimeoutMs (some t)).1
            = Int.ofNat (min (t / NANOS_PER_MILLI) POLL_MAX_MS)
          ∧ ((pollTimeoutMs (some t)).2 = true ↔ POLL_MAX_MS < t / NANOS_PER_MILLI))
    ∧ (∀ (sys : Nat → Int → Int) (nows : Nat → Nat) (deadline : Option Nat)
        (fuel k t : Nat),
        0 ≤ sys k (pollTimeoutMs (some t)).1 →
        (sys k (pollTimeoutMs (some t)).1 ≠ 0 ∨ (pollTimeoutMs (some t)).2 = false) →
        pollLoop sys nows deadline (fuel + 1) k (some t)
          = some (Except.ok (sys k (pollTimeoutMs (some t)).1).toNat))
    ∧ (∀ (sys : Nat → Int → Int) (nows : Nat → Nat) (d fuel k t : Nat),
        sys k (pollTimeoutMs (some t)).1 = 0 →
        (pollTimeoutMs (some t)).2 = true →
        pollLoop sys nows (some d) (fuel + 1) k (some t)
          = if d ≤ nows (k + 1) then some (Except.ok 0)
            else pollLoop sys nows (some d) fuel (k + 1) (some (d - nows (k + 1)))) := by
  refine ⟨by decide, rfl, ?_, ?_, ?_, ?_⟩
  · intro sys nows fuel
    simp only [poll, Option.map, pollLoop, pollTimeoutMs]
    by_cases h : sys 0 (-1) < 0
    · simp [h]
    · simp [h]
  · intro t
    constructor
    · simp only [pollTimeoutMs]
      by_cases h : t / NANOS_PER_MILLI ≤ POLL_MAX_MS
      · rw [if_pos h]
        simp [Nat.min_eq_left h]
      · rw [if_neg h]
        simp [Nat.min_eq_right (by omega : POLL_MAX_MS ≤ t / NANOS_PER_MILLI)]
    · simp only [pollTimeoutMs]
      by_cases h : t / NANOS_PER_MILLI ≤ POLL_MAX_MS
      · rw [if_pos h]
        simp
        omega
      · rw [if_neg h]
        simp
        omega
  · intro sys nows deadline fuel k t h0 hcond
    simp only [pollLoop]
    rw [if_neg (by omega : ¬ sys k (pollTimeoutMs (some t)).1 < 0), if_pos hcond]
  · intro sys nows d fuel k t hzero hovf
    simp only [pollLoop, hzero, hovf]
    rw [if_neg (by norm_num : ¬ (0 : Int) < 0)]
    rw [if_neg (by simp : ¬ ((0 : Int) ≠ 0 ∨ true = false))]

/-- Witness for claim C3: a clamped zero-ready syscall with the deadline
already passed returns zero-ready. -/
theorem claim_C3_witness :
    pollLoop (fun _ _ => 0) (fun _ => 7) (some 5) 1 0 (some 3000000000000000000)
      = some (Except.ok 0) := by
  have h := claim_C3.2.2.2.2.2 (fun _ _ => 0) (fun _ => 7) 5 0 0 3000000000000000000
    rfl (by decide)
  rw [h]
  simp

end Posix
